import Mathlib

/-!
Verification of `control/canonical.py`: the `canonical_form` dispatcher and the
`reachable_form` transformer that converts a SISO state-space system into
reachable canonical form.

The source file is embedded shallowly over exact rationals.  Collaborators that
live outside the verified file (`StateSpace`, `issiso`, `ctrb`, the numeric
library's `poly` and `inv`) are modelled from their contracts in the spec.
-/

/-- Modelled from the spec: the error taxonomy of the module.
`notImplemented` is the unimplemented-feature signal (unsupported form name or
MIMO input); `linAlgError` is the numerical/singularity error propagated from
matrix inversion; `indexError` is an out-of-bounds write (raised by the target
`B[0, 0] = 1` assignment when the system has zero states). -/
inductive CtrlError where
  | notImplemented (msg : String)
  | linAlgError
  | indexError
  deriving DecidableEq

/-- Modelled from the spec: a linear state-space system (§3) with `n` states,
`m` inputs and `p` outputs, holding the four real matrices `A`, `B`, `C`, `D`.
Real entries are embedded as exact rationals. -/
structure StateSpace (n m p : ℕ) where
  A : Matrix (Fin n) (Fin n) ℚ
  B : Matrix (Fin n) (Fin m) ℚ
  C : Matrix (Fin p) (Fin n) ℚ
  D : Matrix (Fin p) (Fin m) ℚ
  deriving DecidableEq

/-- Modelled from the spec: the SISO predicate (§6): true iff the input count
and the output count are both one. -/
def issiso {n m p : ℕ} (_xsys : StateSpace n m p) : Bool :=
  decide (m = 1 ∧ p = 1)

/-- Modelled from the spec: the characteristic-polynomial routine (§6): the
`n + 1` coefficients of the monic characteristic polynomial of `A`, ordered
from the degree-`n` term down to the constant term.  `poly A 0` is the leading
(monic) coefficient and `poly A n` the constant term. -/
noncomputable def poly {n : ℕ} (A : Matrix (Fin n) (Fin n) ℚ) : ℕ → ℚ :=
  fun k => A.charpoly.coeff (n - k)

/-- Modelled from the spec: the controllability-matrix builder (§6) for the
SISO case: the `n × n` matrix whose columns are `b, A b, A² b, …, A^(n-1) b`. -/
def ctrb {n : ℕ} (A : Matrix (Fin n) (Fin n) ℚ) (b : Fin n → ℚ) :
    Matrix (Fin n) (Fin n) ℚ :=
  Matrix.of fun i j => (A ^ (j : ℕ)).mulVec b i

/-- Modelled from the spec: the matrix-inversion contract (§6): fails exactly
when the matrix is singular, otherwise returns the inverse (adjugate divided by
the determinant). -/
def matInv {n : ℕ} (M : Matrix (Fin n) (Fin n) ℚ) :
    Option (Matrix (Fin n) (Fin n) ℚ) :=
  if M.det = 0 then none else some (M.det⁻¹ • M.adjugate)

/-- The companion-form matrix with prescribed first row `r` and ones on the
sub-diagonal: entry `(0, j)` is `r j`, entry `(j+1, j)` is `1`, all other
entries are `0`.  This is the shape the `reachable_form` loop writes into the
target `A`. -/
def companionTop {n : ℕ} (r : Fin n → ℚ) : Matrix (Fin n) (Fin n) ℚ :=
  Matrix.of fun i j =>
    if (i : ℕ) = 0 then r j else if (j : ℕ) + 1 = (i : ℕ) then 1 else 0

/-- The target `B` written by `reachable_form`: zeros of the shape of the input
`B`, then `1` at index `(0, 0)`. -/
def targetB (n m : ℕ) : Matrix (Fin n) (Fin m) ℚ :=
  Matrix.of fun i j => if (i : ℕ) = 0 ∧ (j : ℕ) = 0 then 1 else 0

/-- The unit column vector `e₀` (the single column of the target `B`). -/
def unitCol (n : ℕ) : Fin n → ℚ :=
  fun i => if (i : ℕ) = 0 then 1 else 0

/-- The single column of the input `B` of a SISO system. -/
def bcol {n : ℕ} (xsys : StateSpace n 1 1) : Fin n → ℚ :=
  fun i => xsys.B i 0

/-- The first row written into the target `A` by the `reachable_form` loop:
`-Apoly[j+1] / Apoly[0]`. -/
noncomputable def rowCoeffs {n : ℕ} (A : Matrix (Fin n) (Fin n) ℚ) :
    Fin n → ℚ :=
  fun j => -poly A ((j : ℕ) + 1) / poly A 0

/-- The target `A` written by the `reachable_form` loop: companion matrix whose
first row holds the negated, normalized characteristic-polynomial
coefficients. -/
noncomputable def zAof {n : ℕ} (A : Matrix (Fin n) (Fin n) ℚ) :
    Matrix (Fin n) (Fin n) ℚ :=
  companionTop (rowCoeffs A)

/-- The source controllability matrix `Wrx = ctrb(xsys.A, xsys.B)`. -/
def Wrxof {n : ℕ} (xsys : StateSpace n 1 1) : Matrix (Fin n) (Fin n) ℚ :=
  ctrb xsys.A (bcol xsys)

/-- The target controllability matrix `Wrz = ctrb(zsys.A, zsys.B)`. -/
noncomputable def Wrzof {n : ℕ} (A : Matrix (Fin n) (Fin n) ℚ) :
    Matrix (Fin n) (Fin n) ℚ :=
  ctrb (zAof A) (unitCol n)

/-- Embedding of the body of `reachable_form` from `control/canonical.py`,
specialized to the SISO shape established by the `issiso` guard.

The source copies the input into `zsys`, overwrites `zsys.B` with the unit
column (an out-of-bounds write if the system has zero states), overwrites
`zsys.A` with the companion matrix built from the characteristic polynomial of
`xsys.A`, forms the two controllability matrices, computes
`Tzx = Wrz * inv(Wrx)` and `zsys.C = xsys.C * inv(Tzx)`, and returns
`(zsys, Tzx)`; a singular argument makes `inv` fail. -/
noncomputable def reachable_form_siso {n : ℕ} (xsys : StateSpace n 1 1) :
    Except CtrlError (StateSpace n 1 1 × Matrix (Fin n) (Fin n) ℚ) :=
  if n = 0 then
    Except.error CtrlError.indexError
  else
    match matInv (Wrxof xsys) with
    | none => Except.error CtrlError.linAlgError
    | some Wrxinv =>
      let Tzx := Wrzof xsys.A * Wrxinv
      match matInv Tzx with
      | none => Except.error CtrlError.linAlgError
      | some Tzxinv =>
        Except.ok
          ({ xsys with
              A := zAof xsys.A
              B := targetB n 1
              C := xsys.C * Tzxinv },
            Tzx)

/-- Embedding of `reachable_form` from `control/canonical.py`: the `issiso`
guard rejects every system whose input or output count differs from one with
the unimplemented-feature error; a SISO system is handed to the transformation
body. -/
noncomputable def reachable_form {n m p : ℕ} (xsys : StateSpace n m p) :
    Except CtrlError (StateSpace n m p × Matrix (Fin n) (Fin n) ℚ) :=
  match m, p, xsys with
  | 1, 1, xsys => reachable_form_siso xsys
  | _, _, _ =>
    Except.error (CtrlError.notImplemented
      "Canonical forms for MIMO systems not yet supported")

/-- Embedding of `canonical_form` from `control/canonical.py`: dispatches the
form name `"reachable"` to `reachable_form` and fails with the
unimplemented-feature error on every other name, echoing the requested name in
the message (the source formats it as `Canonical form (name) not yet
implemented`). -/
noncomputable def canonical_form {n m p : ℕ} (xsys : StateSpace n m p)
    (form : String) :
    Except CtrlError (StateSpace n m p × Matrix (Fin n) (Fin n) ℚ) :=
  if form = "reachable" then reachable_form xsys
  else
    Except.error (CtrlError.notImplemented
      ("Canonical form " ++ form ++ " not yet implemented"))

/-- The transformation matrix `Tzx = Wrz * inv(Wrx)` returned on success. -/
noncomputable def Tof {n : ℕ} (xsys : StateSpace n 1 1) :
    Matrix (Fin n) (Fin n) ℚ :=
  Wrzof xsys.A * (Wrxof xsys)⁻¹

/-- The scalar Krylov sequence of a companion matrix with first row `r`:
`krylovCoeff r k` is the top entry of `(companionTop r)^k · e₀`.  It satisfies
`c 0 = 1` and `c (k+1) = ∑ⱼ r j * c (k - j)` (terms with `j > k` dropped). -/
def krylovCoeff {n : ℕ} (r : Fin n → ℚ) : ℕ → ℚ
  | 0 => 1
  | k + 1 =>
    ∑ j : Fin n, if (j : ℕ) ≤ k then r j * krylovCoeff r (k - (j : ℕ)) else 0
termination_by k => k
decreasing_by omega

/-- The shift-companion matrix with last column `q`: column `j < n-1` is the
unit vector `e_{j+1}`, column `n-1` is `q`.  Both controllability matrices
intertwine their system matrix with this common matrix. -/
def shiftComp {n : ℕ} (q : Fin n → ℚ) : Matrix (Fin n) (Fin n) ℚ :=
  Matrix.of fun i j =>
    if (j : ℕ) = n - 1 then q i else if (i : ℕ) = (j : ℕ) + 1 then 1 else 0

/-- The negated characteristic-polynomial coefficients of `A`, constant term
first: the common last column of the shift-companion matrix. -/
noncomputable def negCoeffs {n : ℕ} (A : Matrix (Fin n) (Fin n) ℚ) :
    Fin n → ℚ :=
  fun k => -(A.charpoly.coeff (k : ℕ))

/-- The local variables of `reachable_form`: the input system `xsys` and the
freshly constructed copy `zsys` that the source mutates in place. -/
structure RFVars (n m p : ℕ) where
  xsys : StateSpace n m p
  zsys : StateSpace n m p

/-- Embedding of `zsys = StateSpace(xsys)`: the copy constructor initializes
`zsys` as an independent copy of the input system. -/
def rfInit {n m p : ℕ} (xsys : StateSpace n m p) : RFVars n m p :=
  ⟨xsys, xsys⟩

/-- Embedding of `zsys.B = zeros(shape(xsys.B)); zsys.B[0, 0] = 1`: writes the
target `B` into the copy. -/
def rfSetB {n m p : ℕ} (s : RFVars n m p) : RFVars n m p :=
  { s with zsys := { s.zsys with B := targetB n m } }

/-- Embedding of the loop writing `zsys.A` from the characteristic polynomial
of `xsys.A`. -/
noncomputable def rfSetA {n m p : ℕ} (s : RFVars n m p) : RFVars n m p :=
  { s with zsys := { s.zsys with A := zAof s.xsys.A } }

/-- Embedding of `zsys.C = xsys.C * inv(Tzx)`, with `inv(Tzx)` passed in. -/
def rfSetC {n m p : ℕ} (Tinv : Matrix (Fin n) (Fin n) ℚ)
    (s : RFVars n m p) : RFVars n m p :=
  { s with zsys := { s.zsys with C := s.xsys.C * Tinv } }

/-- The 2-state SISO example system of the spec's concrete scenario. -/
def ex2 : StateSpace 2 1 1 :=
  ⟨!![0, 1; -2, -3], !![0; 1], !![1, 0], !![0]⟩

/-- A system with two inputs and one output: not SISO. -/
def exTwoInput : StateSpace 1 2 1 :=
  ⟨!![0], !![1, 0], !![1], !![0, 0]⟩

/-- A SISO system whose `B` is the zero vector: uncontrollable. -/
def exZeroB : StateSpace 1 1 1 :=
  ⟨!![5], !![0], !![1], !![0]⟩

/-- A SISO system with zero states and zero `B` (a pure feed-through). -/
def exStatic : StateSpace 0 1 1 :=
  ⟨Matrix.of ![], Matrix.of ![], Matrix.of ![![]], !![3]⟩

/-! ### Basic lemmas about the modelled collaborators -/

theorem matInv_of_det_ne {n : ℕ} {M : Matrix (Fin n) (Fin n) ℚ}
    (h : M.det ≠ 0) : matInv M = some M⁻¹ := by
  rw [matInv, if_neg h, Matrix.inv_def, Ring.inverse_eq_inv]

theorem matInv_of_det_eq {n : ℕ} {M : Matrix (Fin n) (Fin n) ℚ}
    (h : M.det = 0) : matInv M = none := by
  rw [matInv, if_pos h]

theorem ctrb_apply {n : ℕ} (A : Matrix (Fin n) (Fin n) ℚ) (b : Fin n → ℚ)
    (i j : Fin n) : ctrb A b i j = (A ^ (j : ℕ)).mulVec b i := rfl

theorem reachable_form_siso_spec {n : ℕ} (xsys : StateSpace n 1 1) :
    reachable_form xsys = reachable_form_siso xsys := rfl

/-! ### The action of the companion matrix -/

theorem companionTop_mulVec_zero {n : ℕ} (r w : Fin n → ℚ) (h0 : 0 < n) :
    (companionTop r).mulVec w ⟨0, h0⟩ = ∑ j, r j * w j := by
  simp [Matrix.mulVec, Matrix.dotProduct, companionTop]

theorem companionTop_mulVec_succ {n : ℕ} (r w : Fin n → ℚ) (i : ℕ)
    (hi : i + 1 < n) :
    (companionTop r).mulVec w ⟨i + 1, hi⟩ = w ⟨i, by omega⟩ := by
  have key : ∀ j : Fin n, companionTop r ⟨i + 1, hi⟩ j * w j
      = if j = ⟨i, by omega⟩ then w ⟨i, by omega⟩ else 0 := by
    intro j
    by_cases hj : j = ⟨i, by omega⟩
    · subst hj; simp [companionTop]
    · have hji : (j : ℕ) ≠ i := fun h => hj (Fin.ext h)
      have hne : (j : ℕ) + 1 ≠ i + 1 := by omega
      simp [companionTop, hne, hj]
  rw [Matrix.mulVec, Matrix.dotProduct]
  simp only [key]
  simp

/-- The Krylov vectors of the companion matrix applied to `e₀`: entry `i` of
`(companionTop r)^k · e₀` is `krylovCoeff r (k - i)` for `i ≤ k` and `0`
below. -/
theorem companionTop_pow_mulVec {n : ℕ} (r : Fin n → ℚ) (k : ℕ) (i : Fin n) :
    ((companionTop r) ^ k).mulVec (unitCol n) i
      = if (i : ℕ) ≤ k then krylovCoeff r (k - (i : ℕ)) else 0 := by
  induction k generalizing i with
  | zero =>
    rw [pow_zero, Matrix.one_mulVec]
    rcases i with ⟨i, hi⟩
    cases i with
    | zero => simp [unitCol, krylovCoeff]
    | succ i => simp [unitCol]
  | succ k ih =>
    rw [pow_succ', ← Matrix.mulVec_mulVec]
    rcases i with ⟨i, hi⟩
    cases i with
    | zero =>
      rw [companionTop_mulVec_zero _ _ hi]
      simp only [ih]
      simp only [mul_ite, mul_zero]
      rw [show krylovCoeff r (k + 1 - 0) = krylovCoeff r (k + 1) by norm_num]
      rw [krylovCoeff]
      simp
    | succ i =>
      rw [companionTop_mulVec_succ _ _ i hi, ih]
      have harith : k + 1 - (i + 1) = k - i := by omega
      simp only [harith, Nat.succ_le_succ_iff]

/-! ### The target controllability matrix is unitriangular -/

theorem Wrzof_apply {n : ℕ} (A : Matrix (Fin n) (Fin n) ℚ) (i j : Fin n) :
    Wrzof A i j =
      if (i : ℕ) ≤ (j : ℕ) then krylovCoeff (rowCoeffs A) ((j : ℕ) - (i : ℕ))
      else 0 := by
  rw [Wrzof, zAof, ctrb_apply, companionTop_pow_mulVec]

theorem Wrzof_det {n : ℕ} (A : Matrix (Fin n) (Fin n) ℚ) :
    (Wrzof A).det = 1 := by
  have ht : (Wrzof A).BlockTriangular id := by
    intro i j hij
    have hij' : (j : ℕ) < (i : ℕ) := hij
    rw [Wrzof_apply, if_neg (by omega)]
  rw [Matrix.det_of_upperTriangular ht]
  have hdiag : ∀ i : Fin n, Wrzof A i i = 1 := by
    intro i
    rw [Wrzof_apply, if_pos le_rfl, Nat.sub_self, krylovCoeff]
  simp [hdiag]

/-! ### Cayley-Hamilton, in coefficient form -/

theorem pow_dim_eq_sum {n : ℕ} (A : Matrix (Fin n) (Fin n) ℚ) :
    A ^ n = ∑ k ∈ Finset.range n, (-(A.charpoly.coeff k)) • A ^ k := by
  have h := Matrix.aeval_self_charpoly A
  rw [Polynomial.aeval_eq_sum_range, Matrix.charpoly_natDegree_eq_dim,
    Fintype.card_fin, Finset.sum_range_succ] at h
  have hc : A.charpoly.coeff n = 1 := by
    have hm := (Matrix.charpoly_monic A).coeff_natDegree
    rwa [Matrix.charpoly_natDegree_eq_dim, Fintype.card_fin] at hm
  rw [hc, one_smul] at h
  calc A ^ n
      = -(∑ k ∈ Finset.range n, A.charpoly.coeff k • A ^ k) :=
        eq_neg_of_add_eq_zero_right h
    _ = ∑ k ∈ Finset.range n, (-(A.charpoly.coeff k)) • A ^ k := by
        rw [← Finset.sum_neg_distrib]
        exact Finset.sum_congr rfl fun k _ => (neg_smul _ _).symm

/-! ### The common intertwining relation -/

theorem sum_pow_mulVec {n : ℕ} (s : Finset ℕ)
    (c : ℕ → ℚ) (A : Matrix (Fin n) (Fin n) ℚ) (b : Fin n → ℚ) (i : Fin n) :
    ((∑ k ∈ s, c k • A ^ k).mulVec b) i
      = ∑ k ∈ s, c k * ((A ^ k).mulVec b) i := by
  induction s using Finset.induction with
  | empty => simp [Matrix.mulVec, Matrix.dotProduct]
  | insert hk ih =>
    rw [Finset.sum_insert hk, Finset.sum_insert hk, Matrix.add_mulVec,
      Matrix.smul_mulVec_assoc, Pi.add_apply, Pi.smul_apply, smul_eq_mul, ih]

theorem mul_ctrb_apply {n : ℕ} (M : Matrix (Fin n) (Fin n) ℚ) (b : Fin n → ℚ)
    (i j : Fin n) :
    (M * ctrb M b) i j = ((M ^ ((j : ℕ) + 1)).mulVec b) i := by
  rw [pow_succ', ← Matrix.mulVec_mulVec, Matrix.mul_apply]
  rfl

theorem mul_shiftComp_last {n : ℕ} (W : Matrix (Fin n) (Fin n) ℚ)
    (q : Fin n → ℚ) (i j : Fin n) (hj : (j : ℕ) = n - 1) :
    (W * shiftComp q) i j = ∑ k, W i k * q k := by
  rw [Matrix.mul_apply]
  exact Finset.sum_congr rfl fun k _ => by rw [shiftComp]; simp [hj]

theorem mul_shiftComp_shift {n : ℕ} (W : Matrix (Fin n) (Fin n) ℚ)
    (q : Fin n → ℚ) (i j : Fin n) (hj : (j : ℕ) + 1 < n) :
    (W * shiftComp q) i j = W i ⟨(j : ℕ) + 1, hj⟩ := by
  rw [Matrix.mul_apply]
  have key : ∀ k : Fin n, W i k * shiftComp q k j
      = if k = ⟨(j : ℕ) + 1, hj⟩ then W i ⟨(j : ℕ) + 1, hj⟩ else 0 := by
    intro k
    by_cases hk : k = ⟨(j : ℕ) + 1, hj⟩
    · subst hk
      rw [shiftComp]
      simp only [Matrix.of_apply]
      rw [if_neg (by omega)]
      simp
    · have hkj : (k : ℕ) ≠ (j : ℕ) + 1 := fun h => hk (Fin.ext h)
      rw [shiftComp]
      simp only [Matrix.of_apply]
      rw [if_neg (by omega), if_neg hkj, mul_zero, if_neg hk]
  simp only [key]
  simp

/-- If `M^n · b` is the `q`-linear combination of the Krylov vectors
`M^k · b`, then `M` and its controllability matrix intertwine through the
shift-companion matrix with last column `q`. -/
theorem ctrb_intertwine_of {n : ℕ} (M : Matrix (Fin n) (Fin n) ℚ)
    (b q : Fin n → ℚ)
    (hq : ∀ i, ((M ^ n).mulVec b) i
      = ∑ k : Fin n, q k * ((M ^ (k : ℕ)).mulVec b) i) :
    M * ctrb M b = ctrb M b * shiftComp q := by
  ext i j
  by_cases hj : (j : ℕ) + 1 < n
  · rw [mul_ctrb_apply, mul_shiftComp_shift _ _ _ _ hj, ctrb_apply]
  · have hj' : (j : ℕ) = n - 1 := by have := j.isLt; omega
    have hjn : (j : ℕ) + 1 = n := by have := j.isLt; omega
    rw [mul_ctrb_apply, mul_shiftComp_last _ _ _ _ hj', hjn, hq i]
    exact Finset.sum_congr rfl fun k _ => by rw [ctrb_apply, mul_comm]

/-! ### The characteristic polynomial is monic, and the two last columns agree -/

theorem poly_zero {n : ℕ} (A : Matrix (Fin n) (Fin n) ℚ) : poly A 0 = 1 := by
  have hm := (Matrix.charpoly_monic A).coeff_natDegree
  rw [Matrix.charpoly_natDegree_eq_dim, Fintype.card_fin] at hm
  simpa [poly] using hm

theorem rowCoeffs_rev {n : ℕ} (A : Matrix (Fin n) (Fin n) ℚ) (k : Fin n) :
    rowCoeffs A k.rev = negCoeffs A k := by
  have hk := k.isLt
  rw [rowCoeffs, poly_zero, div_one, poly, negCoeffs, Fin.val_rev]
  have harg : n - (n - ((k : ℕ) + 1) + 1) = (k : ℕ) := by omega
  rw [harg]

/-- The recurrence defining `krylovCoeff` rewritten through the reversal of
the summation index: the value at `n - i` is the `rev`-weighted combination of
the earlier values. -/
theorem krylov_last {n : ℕ} (r : Fin n → ℚ) (i : Fin n) :
    krylovCoeff r (n - (i : ℕ))
      = ∑ k : Fin n,
          if (i : ℕ) ≤ (k : ℕ)
          then r k.rev * krylovCoeff r ((k : ℕ) - (i : ℕ)) else 0 := by
  have hi := i.isLt
  have hsplit : n - (i : ℕ) = (n - (i : ℕ) - 1) + 1 := by omega
  rw [hsplit, krylovCoeff]
  apply Fintype.sum_equiv Fin.revPerm
  intro j
  have hj := j.isLt
  rw [Fin.revPerm_apply, Fin.rev_rev, Fin.val_rev]
  by_cases hc : (j : ℕ) ≤ n - (i : ℕ) - 1
  · rw [if_pos hc, if_pos (by omega)]
    have harg : n - (i : ℕ) - 1 - (j : ℕ) = n - ((j : ℕ) + 1) - (i : ℕ) := by
      omega
    rw [harg]
  · rw [if_neg hc, if_neg (by omega)]

/-- The source-side hypothesis of the intertwining: Cayley-Hamilton applied to
the column `b`. -/
theorem wrx_hq {n : ℕ} (A : Matrix (Fin n) (Fin n) ℚ) (b : Fin n → ℚ)
    (i : Fin n) :
    ((A ^ n).mulVec b) i
      = ∑ k : Fin n, negCoeffs A k * ((A ^ (k : ℕ)).mulVec b) i := by
  rw [pow_dim_eq_sum, sum_pow_mulVec]
  rw [show (∑ k : Fin n, negCoeffs A k * ((A ^ (k : ℕ)).mulVec b) i)
      = ∑ k ∈ Finset.range n, (-(A.charpoly.coeff k)) * ((A ^ k).mulVec b) i
    from Fin.sum_univ_eq_sum_range
      (fun j => (-(A.charpoly.coeff j)) * ((A ^ j).mulVec b) i) n]

/-- The target-side hypothesis of the intertwining: the Krylov recurrence of
the companion matrix, with the same coefficient column. -/
theorem wrz_hq {n : ℕ} (A : Matrix (Fin n) (Fin n) ℚ) (i : Fin n) :
    ((zAof A ^ n).mulVec (unitCol n)) i
      = ∑ k : Fin n, negCoeffs A k * ((zAof A ^ (k : ℕ)).mulVec (unitCol n)) i := by
  rw [zAof, companionTop_pow_mulVec, if_pos (le_of_lt i.isLt), krylov_last]
  apply Finset.sum_congr rfl
  intro k _
  rw [companionTop_pow_mulVec, mul_ite, mul_zero]
  rcases le_or_lt (i : ℕ) (k : ℕ) with h | h
  · rw [if_pos h, if_pos h, rowCoeffs_rev]
  · rw [if_neg (by omega), if_neg (by omega)]

theorem wrx_intertwine {n : ℕ} (A : Matrix (Fin n) (Fin n) ℚ) (b : Fin n → ℚ) :
    A * ctrb A b = ctrb A b * shiftComp (negCoeffs A) :=
  ctrb_intertwine_of A b (negCoeffs A) (wrx_hq A b)

theorem wrz_intertwine {n : ℕ} (A : Matrix (Fin n) (Fin n) ℚ) :
    zAof A * Wrzof A = Wrzof A * shiftComp (negCoeffs A) :=
  ctrb_intertwine_of (zAof A) (unitCol n) (negCoeffs A) (wrz_hq A)

/-! ### Characterizing the result of `reachable_form` -/

theorem reachable_form_eq_ok {n : ℕ} (xsys : StateSpace n 1 1) (hn : n ≠ 0)
    (hdet : (Wrxof xsys).det ≠ 0) :
    reachable_form xsys =
      Except.ok
        ({ xsys with
            A := zAof xsys.A
            B := targetB n 1
            C := xsys.C * (Tof xsys)⁻¹ },
          Tof xsys) := by
  have hT : (Wrzof xsys.A * (Wrxof xsys)⁻¹).det ≠ 0 := by
    rw [Matrix.det_mul, Wrzof_det, one_mul, Matrix.det_nonsing_inv,
      Ring.inverse_eq_inv]
    exact inv_ne_zero hdet
  rw [reachable_form_siso_spec, reachable_form_siso, if_neg hn,
    matInv_of_det_ne hdet]
  simp only [matInv_of_det_ne hT, Tof]

theorem reachable_form_singular {n : ℕ} (xsys : StateSpace n 1 1) (hn : n ≠ 0)
    (hdet : (Wrxof xsys).det = 0) :
    reachable_form xsys = Except.error CtrlError.linAlgError := by
  rw [reachable_form_siso_spec, reachable_form_siso, if_neg hn,
    matInv_of_det_eq hdet]

theorem reachable_form_ok_inv {n : ℕ} {xsys zsys : StateSpace n 1 1}
    {T : Matrix (Fin n) (Fin n) ℚ}
    (h : reachable_form xsys = Except.ok (zsys, T)) :
    n ≠ 0 ∧ (Wrxof xsys).det ≠ 0 ∧ T = Tof xsys ∧
      zsys = { xsys with
        A := zAof xsys.A
        B := targetB n 1
        C := xsys.C * (Tof xsys)⁻¹ } := by
  by_cases hn : n = 0
  · rw [reachable_form_siso_spec, reachable_form_siso, if_pos hn] at h
    exact absurd h (by simp)
  by_cases hdet : (Wrxof xsys).det = 0
  · rw [reachable_form_singular xsys hn hdet] at h
    exact absurd h (by simp)
  · rw [reachable_form_eq_ok xsys hn hdet] at h
    simp only [Except.ok.injEq, Prod.mk.injEq] at h
    exact ⟨hn, hdet, h.2.symm, h.1.symm⟩

/-! ### The coordinate-change identities -/

theorem ctrb_mul_targetB {n : ℕ} (A : Matrix (Fin n) (Fin n) ℚ)
    (b : Fin n → ℚ) (hn : n ≠ 0) :
    ctrb A b * targetB n 1 = Matrix.of fun i (_ : Fin 1) => b i := by
  ext i j
  rw [Matrix.mul_apply]
  have h0 : (0 : ℕ) < n := Nat.pos_of_ne_zero hn
  rw [Finset.sum_eq_single ⟨0, h0⟩]
  · rw [ctrb_apply, pow_zero, Matrix.one_mulVec, targetB]
    simp
  · intro k _ hk
    have hkv : (k : ℕ) ≠ 0 := fun hv => hk (Fin.ext hv)
    rw [targetB]
    simp [hkv]
  · intro habs
    exact absurd (Finset.mem_univ _) habs

theorem Wrx_mul_targetB {n : ℕ} (xsys : StateSpace n 1 1) (hn : n ≠ 0) :
    Wrxof xsys * targetB n 1 = xsys.B := by
  rw [Wrxof, ctrb_mul_targetB _ _ hn]
  ext i j
  rw [Matrix.of_apply, bcol, Fin.eq_zero j]

theorem Wrz_mul_targetB {n : ℕ} (A : Matrix (Fin n) (Fin n) ℚ) (hn : n ≠ 0) :
    Wrzof A * targetB n 1 = targetB n 1 := by
  rw [Wrzof, ctrb_mul_targetB _ _ hn]
  ext i j
  rw [Matrix.of_apply, unitCol, targetB, Fin.eq_zero j]
  simp

theorem Tof_mul_B {n : ℕ} (xsys : StateSpace n 1 1) (hn : n ≠ 0)
    (hdet : (Wrxof xsys).det ≠ 0) :
    Tof xsys * xsys.B = targetB n 1 := by
  have hu : IsUnit (Wrxof xsys).det := isUnit_iff_ne_zero.mpr hdet
  rw [Tof, Matrix.mul_assoc, ← Wrx_mul_targetB xsys hn,
    ← Matrix.mul_assoc (Wrxof xsys)⁻¹, Matrix.nonsing_inv_mul _ hu,
    Matrix.one_mul, Wrz_mul_targetB _ hn]

theorem Tof_conj {n : ℕ} (xsys : StateSpace n 1 1)
    (hdet : (Wrxof xsys).det ≠ 0) :
    Tof xsys * xsys.A * (Tof xsys)⁻¹ = zAof xsys.A := by
  have hu : IsUnit (Wrxof xsys).det := isUnit_iff_ne_zero.mpr hdet
  have huz : IsUnit (Wrzof xsys.A).det := by
    rw [Wrzof_det]; exact isUnit_one
  have hx : xsys.A * Wrxof xsys
      = Wrxof xsys * shiftComp (negCoeffs xsys.A) :=
    wrx_intertwine xsys.A (bcol xsys)
  rw [Tof, Matrix.mul_inv_rev, Matrix.nonsing_inv_nonsing_inv _ hu]
  simp only [Matrix.mul_assoc]
  rw [show xsys.A * (Wrxof xsys * (Wrzof xsys.A)⁻¹)
      = Wrxof xsys * (shiftComp (negCoeffs xsys.A) * (Wrzof xsys.A)⁻¹) from by
    rw [← Matrix.mul_assoc, hx, Matrix.mul_assoc]]
  rw [Matrix.nonsing_inv_mul_cancel_left _ _ hu]
  rw [← Matrix.mul_assoc, ← wrz_intertwine, Matrix.mul_assoc,
    Matrix.mul_nonsing_inv _ huz, Matrix.mul_one]

/-! ### Concrete evaluation on the 2-state example -/

theorem ex2_det : ex2.A.det = 2 := by
  rw [show ex2.A = !![(0 : ℚ), 1; -2, -3] from rfl, Matrix.det_fin_two_of]
  norm_num

theorem ex2_coeff0 : ex2.A.charpoly.coeff 0 = 2 := by
  have h := Matrix.det_eq_sign_charpoly_coeff ex2.A
  rw [ex2_det, Fintype.card_fin] at h
  norm_num at h
  exact h.symm

theorem ex2_coeff1 : ex2.A.charpoly.coeff 1 = 3 := by
  have h := Matrix.trace_eq_neg_charpoly_coeff ex2.A
  rw [Fintype.card_fin,
    show ex2.A.trace = -3 from by
      rw [show ex2.A = !![(0 : ℚ), 1; -2, -3] from rfl,
        Matrix.trace_fin_two_of]
      norm_num] at h
  have h1 : ex2.A.charpoly.coeff (2 - 1) = ex2.A.charpoly.coeff 1 := by
    norm_num
  rw [h1] at h
  linarith

theorem ex2_coeff2 : ex2.A.charpoly.coeff 2 = 1 := by
  have hm := (Matrix.charpoly_monic ex2.A).coeff_natDegree
  rwa [Matrix.charpoly_natDegree_eq_dim, Fintype.card_fin] at hm

theorem ex2_zA : zAof ex2.A = !![(-3 : ℚ), -2; 1, 0] := by
  ext i j
  rw [zAof, companionTop]
  fin_cases i <;> fin_cases j <;>
    norm_num [rowCoeffs, poly, ex2_coeff0, ex2_coeff1, ex2_coeff2]

theorem ex2_Wrx : Wrxof ex2 = !![(0 : ℚ), 1; 1, -3] := by
  ext i j
  rw [Wrxof, ctrb_apply]
  fin_cases i <;> fin_cases j <;>
    simp [ex2, bcol, Matrix.mulVec, Matrix.dotProduct, Fin.sum_univ_two,
      pow_one, pow_zero]

theorem ex2_Wrx_det : (Wrxof ex2).det = -1 := by
  rw [ex2_Wrx, Matrix.det_fin_two_of]
  norm_num

theorem ex2_Wrx_inv : (Wrxof ex2)⁻¹ = !![(3 : ℚ), 1; 1, 0] := by
  rw [Matrix.inv_def, Matrix.adjugate_fin_two, ex2_Wrx_det, ex2_Wrx,
    Ring.inverse_eq_inv]
  ext i j
  fin_cases i <;> fin_cases j <;> norm_num

theorem ex2_Wrz : Wrzof ex2.A = !![(1 : ℚ), -3; 0, 1] := by
  rw [Wrzof, ex2_zA]
  ext i j
  rw [ctrb_apply]
  fin_cases i <;> fin_cases j <;>
    simp [unitCol, Matrix.mulVec, Matrix.dotProduct, Fin.sum_univ_two,
      pow_one, pow_zero]

theorem ex2_T : Tof ex2 = !![(0 : ℚ), 1; 1, 0] := by
  rw [Tof, ex2_Wrz, ex2_Wrx_inv]
  ext i j
  fin_cases i <;> fin_cases j <;>
    simp [Matrix.mul_apply, Fin.sum_univ_two]

theorem ex2_T_inv : (Tof ex2)⁻¹ = !![(0 : ℚ), 1; 1, 0] := by
  rw [ex2_T, Matrix.inv_def, Matrix.adjugate_fin_two, Matrix.det_fin_two_of,
    Ring.inverse_eq_inv]
  ext i j
  fin_cases i <;> fin_cases j <;> norm_num

theorem ex2_eval : reachable_form ex2 =
    Except.ok
      (⟨!![(-3 : ℚ), -2; 1, 0], !![(1 : ℚ); 0], !![(0 : ℚ), 1], !![(0 : ℚ)]⟩,
        !![(0 : ℚ), 1; 1, 0]) := by
  rw [reachable_form_eq_ok ex2 (by norm_num)
      (by rw [ex2_Wrx_det]; norm_num),
    ex2_zA, ex2_T_inv, ex2_T]
  have hB : targetB 2 1 = !![(1 : ℚ); 0] := by
    ext i j
    fin_cases i <;> fin_cases j <;> simp [targetB]
  have hC : ex2.C * !![(0 : ℚ), 1; 1, 0] = !![(0 : ℚ), 1] := by
    ext i j
    fin_cases i <;> fin_cases j <;>
      simp [ex2, Matrix.mul_apply, Fin.sum_univ_two]
  rw [hB, hC]
  rfl

/-! ### Claim theorems -/

/-- C1: for every SISO input system on which `reachable_form` succeeds, the
returned `A` has companion structure: ones on the sub-diagonal, zeros at every
entry outside the first row and the sub-diagonal, and first row equal to the
negated, normalized characteristic-polynomial coefficients of the input `A`
(highest degree first after the monic term). -/
theorem C1_companion_structure {n : ℕ} (xsys zsys : StateSpace n 1 1)
    (T : Matrix (Fin n) (Fin n) ℚ)
    (h : reachable_form xsys = Except.ok (zsys, T)) :
    (∀ i : Fin n, ∀ hi : (i : ℕ) + 1 < n, zsys.A ⟨(i : ℕ) + 1, hi⟩ i = 1) ∧
    (∀ i j : Fin n, (i : ℕ) ≠ 0 → (j : ℕ) + 1 ≠ (i : ℕ) → zsys.A i j = 0) ∧
    (∀ i j : Fin n, (i : ℕ) = 0 →
      zsys.A i j = -(xsys.A.charpoly.coeff (n - ((j : ℕ) + 1)))
        / xsys.A.charpoly.coeff n) := by
  obtain ⟨hn, hdet, hT, hz⟩ := reachable_form_ok_inv h
  subst hz
  refine ⟨?_, ?_, ?_⟩
  · intro i hi
    show companionTop (rowCoeffs xsys.A) _ _ = 1
    rw [companionTop]
    simp
  · intro i j hi hij
    show companionTop (rowCoeffs xsys.A) _ _ = 0
    rw [companionTop]
    simp only [Matrix.of_apply]
    rw [if_neg hi, if_neg hij]
  · intro i j hi
    show companionTop (rowCoeffs xsys.A) _ _ = _
    rw [companionTop]
    simp only [Matrix.of_apply]
    rw [if_pos hi, rowCoeffs, poly, poly, Nat.sub_zero]

/-- C1 witness: the sub-diagonal entry `(1, 0)` of the returned `A` on the
2-state example equals `1`. -/
theorem C1_companion_structure_witness :
    (!![(-3 : ℚ), -2; 1, 0] : Matrix (Fin 2) (Fin 2) ℚ) 1 0 = 1 :=
  (C1_companion_structure ex2
    ⟨!![(-3 : ℚ), -2; 1, 0], !![(1 : ℚ); 0], !![(0 : ℚ), 1], !![(0 : ℚ)]⟩
    !![(0 : ℚ), 1; 1, 0] ex2_eval).1 0 (by norm_num)

/-- C2: for every fully controllable SISO system (nonsingular source
controllability matrix), the returned `T` satisfies the coordinate-change
equations `T * A * T⁻¹ = zsys.A` and `T * B = zsys.B`. -/
theorem C2_coordinate_change {n : ℕ} (xsys zsys : StateSpace n 1 1)
    (T : Matrix (Fin n) (Fin n) ℚ)
    (hctrl : (Wrxof xsys).det ≠ 0)
    (h : reachable_form xsys = Except.ok (zsys, T)) :
    T * xsys.A * T⁻¹ = zsys.A ∧ T * xsys.B = zsys.B := by
  obtain ⟨hn, hdet, hT, hz⟩ := reachable_form_ok_inv h
  subst hT
  subst hz
  exact ⟨Tof_conj xsys hctrl, Tof_mul_B xsys hn hctrl⟩

/-- C2 witness: the coordinate-change equations on the 2-state example, with
the concrete transformation matrix. -/
theorem C2_coordinate_change_witness :
    !![(0 : ℚ), 1; 1, 0] * ex2.A * (!![(0 : ℚ), 1; 1, 0])⁻¹
        = !![(-3 : ℚ), -2; 1, 0] ∧
      !![(0 : ℚ), 1; 1, 0] * ex2.B = !![(1 : ℚ); 0] :=
  C2_coordinate_change ex2
    ⟨!![(-3 : ℚ), -2; 1, 0], !![(1 : ℚ); 0], !![(0 : ℚ), 1], !![(0 : ℚ)]⟩
    !![(0 : ℚ), 1; 1, 0]
    (by rw [ex2_Wrx_det]; norm_num) ex2_eval

/-- C3: the concrete 2-state scenario: `reachable_form` on the system with
`A = [[0,1],[-2,-3]]`, `B = [[0],[1]]`, `C = [[1,0]]`, `D = [[0]]` returns
`zsys.A = [[-3,-2],[1,0]]`, `zsys.B = [[1],[0]]`, `zsys.D = [[0]]` and an
invertible 2x2 transformation matrix. -/
theorem C3_concrete_scenario :
    reachable_form ex2 =
      Except.ok
        (⟨!![(-3 : ℚ), -2; 1, 0], !![(1 : ℚ); 0], !![(0 : ℚ), 1],
            !![(0 : ℚ)]⟩,
          !![(0 : ℚ), 1; 1, 0]) ∧
      (!![(0 : ℚ), 1; 1, 0] : Matrix (Fin 2) (Fin 2) ℚ).det ≠ 0 :=
  ⟨ex2_eval, by rw [Matrix.det_fin_two_of]; norm_num⟩

/-- C4: for every SISO input system on which `reachable_form` succeeds, the
returned `B` is the column with `1` in the first row and `0` elsewhere. -/
theorem C4_B_normalization {n : ℕ} (xsys zsys : StateSpace n 1 1)
    (T : Matrix (Fin n) (Fin n) ℚ)
    (h : reachable_form xsys = Except.ok (zsys, T)) :
    ∀ (i : Fin n) (j : Fin 1),
      zsys.B i j = if (i : ℕ) = 0 then 1 else 0 := by
  obtain ⟨-, -, -, hz⟩ := reachable_form_ok_inv h
  subst hz
  intro i j
  show targetB n 1 i j = _
  rw [targetB]
  simp

/-- C4 witness: the first entry of the returned `B` on the 2-state example
equals `1`. -/
theorem C4_B_normalization_witness :
    (!![(1 : ℚ); 0] : Matrix (Fin 2) (Fin 1) ℚ) 0 0 = 1 :=
  (C4_B_normalization ex2
    ⟨!![(-3 : ℚ), -2; 1, 0], !![(1 : ℚ); 0], !![(0 : ℚ), 1], !![(0 : ℚ)]⟩
    !![(0 : ℚ), 1; 1, 0] ex2_eval) 0 0

/-- C5: for every system with more than one input or more than one output,
`reachable_form` fails with the unimplemented-feature error; no pair is
produced and the transformation body is never entered. -/
theorem C5_mimo_rejected {n m p : ℕ} (xsys : StateSpace n m p)
    (h : 1 < m ∨ 1 < p) :
    reachable_form xsys =
      Except.error (CtrlError.notImplemented
        "Canonical forms for MIMO systems not yet supported") := by
  rcases m with _ | (_ | m)
  · rfl
  · rcases p with _ | (_ | p)
    · rfl
    · rcases h with h | h <;> exact absurd h (by omega)
    · rfl
  · rfl

/-- C5 witness: the 1-state, 2-input example is rejected. -/
theorem C5_mimo_rejected_witness :
    reachable_form exTwoInput =
      Except.error (CtrlError.notImplemented
        "Canonical forms for MIMO systems not yet supported") :=
  C5_mimo_rejected exTwoInput (Or.inl (by norm_num))

/-- C6: `canonical_form` returns exactly the result of `reachable_form` for
the form name `"reachable"`, and fails with the unimplemented-feature error
whose message contains the requested name for every other form name. -/
theorem C6_dispatch {n m p : ℕ} (xsys : StateSpace n m p) (form : String) :
    canonical_form xsys "reachable" = reachable_form xsys ∧
    (form ≠ "reachable" →
      ∃ pre post, canonical_form xsys form =
        Except.error (CtrlError.notImplemented (pre ++ form ++ post))) := by
  constructor
  · rw [canonical_form, if_pos rfl]
  · intro hf
    exact ⟨"Canonical form ", " not yet implemented", by
      rw [canonical_form, if_neg hf]⟩

/-- C6 witness: `"observable"` is rejected with a message echoing the name. -/
theorem C6_dispatch_witness :
    ∃ pre post, canonical_form ex2 "observable" =
      Except.error (CtrlError.notImplemented (pre ++ "observable" ++ post)) :=
  (C6_dispatch ex2 "observable").2 (by decide)

/-- C7: for every SISO input system on which `reachable_form` succeeds, the
returned `D` equals the input `D` exactly. -/
theorem C7_D_preserved {n : ℕ} (xsys zsys : StateSpace n 1 1)
    (T : Matrix (Fin n) (Fin n) ℚ)
    (h : reachable_form xsys = Except.ok (zsys, T)) :
    zsys.D = xsys.D := by
  obtain ⟨-, -, -, hz⟩ := reachable_form_ok_inv h
  rw [hz]

/-- C7 witness: on the 2-state example the returned `D` is the input `D`. -/
theorem C7_D_preserved_witness :
    (!![(0 : ℚ)] : Matrix (Fin 1) (Fin 1) ℚ) = ex2.D :=
  C7_D_preserved ex2
    ⟨!![(-3 : ℚ), -2; 1, 0], !![(1 : ℚ); 0], !![(0 : ℚ), 1], !![(0 : ℚ)]⟩
    !![(0 : ℚ), 1; 1, 0] ex2_eval

/-- C8: the transformer never mutates the input system: every assignment
performed by the source (`zsys = StateSpace(xsys)`, the `B` write, the `A`
loop, the `C` write) maps the pair of locals so that the `xsys` component is
untouched, and on success the returned system is exactly the `zsys` component
produced by that write sequence. -/
theorem C8_no_input_mutation :
    (∀ (n m p : ℕ) (xsys : StateSpace n m p)
        (Tinv : Matrix (Fin n) (Fin n) ℚ),
      (rfInit xsys).xsys = xsys ∧
      (rfSetB (rfInit xsys)).xsys = xsys ∧
      (rfSetA (rfSetB (rfInit xsys))).xsys = xsys ∧
      (rfSetC Tinv (rfSetA (rfSetB (rfInit xsys)))).xsys = xsys) ∧
    (∀ (n : ℕ) (xsys zsys : StateSpace n 1 1)
        (T : Matrix (Fin n) (Fin n) ℚ),
      reachable_form xsys = Except.ok (zsys, T) →
      zsys = (rfSetC (Tof xsys)⁻¹ (rfSetA (rfSetB (rfInit xsys)))).zsys) := by
  constructor
  · intro n m p xsys Tinv
    exact ⟨rfl, rfl, rfl, rfl⟩
  · intro n xsys zsys T h
    obtain ⟨-, -, -, hz⟩ := reachable_form_ok_inv h
    rw [hz]
    rfl

/-- C8 witness: on the 2-state example the write sequence leaves the input
untouched and produces the returned system. -/
theorem C8_no_input_mutation_witness :
    (rfSetC (Tof ex2)⁻¹ (rfSetA (rfSetB (rfInit ex2)))).xsys = ex2 ∧
    (⟨!![(-3 : ℚ), -2; 1, 0], !![(1 : ℚ); 0], !![(0 : ℚ), 1],
        !![(0 : ℚ)]⟩ : StateSpace 2 1 1)
      = (rfSetC (Tof ex2)⁻¹ (rfSetA (rfSetB (rfInit ex2)))).zsys :=
  ⟨(C8_no_input_mutation.1 2 1 1 ex2 (Tof ex2)⁻¹).2.2.2,
    C8_no_input_mutation.2 2 ex2
      ⟨!![(-3 : ℚ), -2; 1, 0], !![(1 : ℚ); 0], !![(0 : ℚ), 1], !![(0 : ℚ)]⟩
      !![(0 : ℚ), 1; 1, 0] ex2_eval⟩

/-- C9 counterexample: the zero-state SISO system has `B = 0`, yet
`reachable_form` fails with the index error raised by the `B[0, 0] = 1`
write, not with the propagated singularity error claimed. -/
theorem C9_counterexample :
    exStatic.B = 0 ∧
    reachable_form exStatic = Except.error CtrlError.indexError ∧
    reachable_form exStatic ≠ Except.error CtrlError.linAlgError := by
  refine ⟨?_, rfl, ?_⟩
  · ext i j
    exact i.elim0
  · intro h
    rw [show reachable_form exStatic = Except.error CtrlError.indexError
      from rfl] at h
    simp at h

/-- C9 (amended): for every SISO system with at least one state whose `B` is
the zero vector, `reachable_form` fails with the propagated
numerical/singularity error from the inversion of the (zero, hence singular)
source controllability matrix. -/
theorem C9_zero_B_singular {n : ℕ} (xsys : StateSpace n 1 1) (hn : n ≠ 0)
    (hB : xsys.B = 0) :
    reachable_form xsys = Except.error CtrlError.linAlgError := by
  apply reachable_form_singular xsys hn
  have hW : Wrxof xsys = 0 := by
    ext i j
    rw [Wrxof, ctrb_apply]
    have hb : bcol xsys = 0 := by
      funext i
      rw [bcol, hB]
      rfl
    rw [hb, Matrix.mulVec_zero]
    rfl
  rw [hW]
  exact Matrix.det_zero ⟨⟨0, Nat.pos_of_ne_zero hn⟩⟩

/-- C9 witness: the 1-state system with `B = 0` fails with the singularity
error. -/
theorem C9_zero_B_singular_witness :
    reachable_form exZeroB = Except.error CtrlError.linAlgError :=
  C9_zero_B_singular exZeroB (by norm_num)
    (by ext i j; fin_cases i; fin_cases j; simp [exZeroB])

/-- C10: the divisor `Apoly[0]` is always `1` (the characteristic polynomial
is monic), so the normalizing division never divides by zero and the first
row of the returned `A` is exactly `-Apoly[i+1]`. -/
theorem C10_monic_divisor {n : ℕ} (xsys : StateSpace n 1 1) :
    poly xsys.A 0 = 1 ∧
    (∀ (zsys : StateSpace n 1 1) (T : Matrix (Fin n) (Fin n) ℚ),
      reachable_form xsys = Except.ok (zsys, T) →
      ∀ i j : Fin n, (i : ℕ) = 0 →
        zsys.A i j = -poly xsys.A ((j : ℕ) + 1)) := by
  refine ⟨poly_zero _, ?_⟩
  intro zsys T h i j hi
  obtain ⟨-, -, -, hz⟩ := reachable_form_ok_inv h
  subst hz
  show companionTop (rowCoeffs xsys.A) i j = _
  rw [companionTop]
  simp only [Matrix.of_apply]
  rw [if_pos hi, rowCoeffs, poly_zero, div_one]

/-- C10 witness: on the 2-state example the divisor is `1` and entry `(0,0)`
of the returned `A` is the negated coefficient. -/
theorem C10_monic_divisor_witness :
    poly ex2.A 0 = 1 ∧
    (!![(-3 : ℚ), -2; 1, 0] : Matrix (Fin 2) (Fin 2) ℚ) 0 0
      = -poly ex2.A 1 :=
  ⟨(C10_monic_divisor ex2).1,
    (C10_monic_divisor ex2).2
      ⟨!![(-3 : ℚ), -2; 1, 0], !![(1 : ℚ); 0], !![(0 : ℚ), 1], !![(0 : ℚ)]⟩
      !![(0 : ℚ), 1; 1, 0] ex2_eval 0 0 rfl⟩
